import Mathlib

/-!
Verification of the otus-log-analyzer parsing-and-aggregation pipeline.

The development shallowly embeds the repository's core module
(`log_analyzer/core.py` and its sibling snapshot `log_analyzer.py`):

* log lines are lists of Unicode code points (`List Nat`); raw file lines are
  lists of bytes (`List Nat`, each < 256);
* Python floats are modelled as exact rationals (`ℚ`);
* the per-line extraction regex
  `^.+\[.+\] \"(.+)\" \d{3}.+ (\d+\.\d+)\n$`
  is embedded as an explicit backtracking search that tries the split points
  of each greedy `.+` hole from longest to shortest, exactly the order in
  which the Python `re` engine explores them for this linear pattern;
* exceptions are modelled with `Except`: a raised exception is an `error`
  value, and generator-aborting exceptions surface as the error of the
  whole pass;
* the filesystem is abstracted to the directory listing: a directory is
  `Option (List String)`, `none` standing for "not a directory".
-/

namespace LogAnalyzer

/-- One successfully parsed log line (`LogRequest` named tuple in the source):
the requested URL (code points) and the request duration. -/
structure LogRequest where
  url : List Nat
  time : ℚ
  deriving DecidableEq, Repr

/-- Aggregated statistics for one URL (`LogStat` named tuple in the source). -/
structure LogStat where
  url : List Nat
  count : Nat
  count_perc : ℚ
  time_sum : ℚ
  time_perc : ℚ
  time_avg : ℚ
  time_max : ℚ
  time_med : ℚ
  deriving DecidableEq, Repr

/-! ## The line-extraction pattern

`LOG_REQUEST_PATTERN = ^.+\[.+\] \"(.+)\" \d{3}.+ (\d+\.\d+)\n$`, applied by
`re.search` (the `^` anchor restricts the search to position 0).  `.` matches
any code point except the newline 10.  Each `.+` hole is greedy: the engine
tries the longest candidate first and backtracks; the functions below try the
split points in exactly that order. -/

/-- Code-point class of the regex `\d`. -/
def isDigitCp (c : Nat) : Bool := 48 ≤ c && c ≤ 57

/-- Code-point class of the regex `.` (any character but newline). -/
def isDotCp (c : Nat) : Bool := c != 10

/-- All splits of `s` into `(prefix, suffix)`, longest prefix first: the
order in which a greedy `.+` explores its candidates. -/
def splitsDesc (s : List Nat) : List (List Nat × List Nat) :=
  ((List.range (s.length + 1)).reverse).map fun n => (s.take n, s.drop n)

/-- Matches the tail `(\d+\.\d+)\n$` of the pattern and returns the second
capture group.  `\d+` is greedy and, being followed by a non-digit literal,
deterministic: it takes the maximal digit run.  The final `$` accepts either
the end of the string or a position just before one trailing newline, as the
Python `$` does without `re.MULTILINE`. -/
def matchTimeTail (s : List Nat) : Option (List Nat) :=
  if (s.takeWhile isDigitCp).isEmpty then none
  else
    match s.drop (s.takeWhile isDigitCp).length with
    | 46 :: r2 =>
      if (r2.takeWhile isDigitCp).isEmpty then none
      else
        match r2.drop (r2.takeWhile isDigitCp).length with
        | [10] => some (s.takeWhile isDigitCp ++ 46 :: r2.takeWhile isDigitCp)
        | [10, 10] => some (s.takeWhile isDigitCp ++ 46 :: r2.takeWhile isDigitCp)
        | _ => none
    | _ => none

/-- Matches `.+ (\d+\.\d+)\n$` (the part after the status code). -/
def matchAfterStatus (s : List Nat) : Option (List Nat) :=
  (splitsDesc s).findSome? fun p =>
    if !p.1.isEmpty && p.1.all isDotCp then
      match p.2 with
      | 32 :: b => matchTimeTail b
      | _ => none
    else none

/-- Matches ` \d{3}.+ (\d+\.\d+)\n$` (the part after the closing quote). -/
def matchAfterQuote (s : List Nat) : Option (List Nat) :=
  match s with
  | 32 :: d1 :: d2 :: d3 :: rest =>
    if isDigitCp d1 && isDigitCp d2 && isDigitCp d3 then matchAfterStatus rest
    else none
  | _ => none

/-- Matches `(.+)\" \d{3}.+ (\d+\.\d+)\n$` starting just after the opening
quote; returns both capture groups. -/
def matchQuoted (s : List Nat) : Option (List Nat × List Nat) :=
  (splitsDesc s).findSome? fun p =>
    if !p.1.isEmpty && p.1.all isDotCp then
      match p.2 with
      | 34 :: b => (matchAfterQuote b).map fun t => (p.1, t)
      | _ => none
    else none

/-- Matches `.+\] \"(.+)\" \d{3}.+ (\d+\.\d+)\n$` starting just after the
opening bracket. -/
def matchBracketed (s : List Nat) : Option (List Nat × List Nat) :=
  (splitsDesc s).findSome? fun p =>
    if !p.1.isEmpty && p.1.all isDotCp then
      match p.2 with
      | 93 :: 32 :: 34 :: b => matchQuoted b
      | _ => none
    else none

/-- The whole pattern `^.+\[.+\] \"(.+)\" \d{3}.+ (\d+\.\d+)\n$`: returns the
two capture groups (request field, duration) on success. -/
def logRequestMatch (s : List Nat) : Option (List Nat × List Nat) :=
  (splitsDesc s).findSome? fun p =>
    if !p.1.isEmpty && p.1.all isDotCp then
      match p.2 with
      | 91 :: b => matchBracketed b
      | _ => none
    else none

/-- Whitespace class of Python `str.split()` (ASCII fragment). -/
def isSpaceCp (c : Nat) : Bool :=
  c == 32 || c == 9 || c == 10 || c == 11 || c == 12 || c == 13

/-- Helper of `splitWs`, carrying the current (reversed) token. -/
def splitWsAux (s : List Nat) (acc : List Nat) : List (List Nat) :=
  match s with
  | [] => if acc.isEmpty then [] else [acc.reverse]
  | c :: cs =>
    if isSpaceCp c then
      if acc.isEmpty then splitWsAux cs []
      else acc.reverse :: splitWsAux cs []
    else splitWsAux cs (c :: acc)

/-- Python `str.split()` with no argument: splits on runs of whitespace and
drops empty tokens. -/
def splitWs (s : List Nat) : List (List Nat) := splitWsAux s []

/-- Value of a digit run. -/
def digitsVal (l : List Nat) : Nat := l.foldl (fun n c => n * 10 + (c - 48)) 0

/-- Python `float` applied to the second capture group `\d+\.\d+`, modelled
exactly over `ℚ`. -/
def parseFloatQ (g : List Nat) : ℚ :=
  let ip := g.takeWhile isDigitCp
  let rest := g.drop ip.length
  match rest with
  | 46 :: fp => (digitsVal ip : ℚ) + (digitsVal fp : ℚ) / ((10 : ℚ) ^ fp.length)
  | _ => (digitsVal ip : ℚ)

/-- The per-line step of `_iterate_over_requests`: apply the pattern; on a
match, split the request field into exactly three whitespace-separated tokens
(method, URL, protocol), else the line is invalid (`None` in the source). -/
def parseLine (s : List Nat) : Option LogRequest :=
  match logRequestMatch s with
  | none => none
  | some (g1, g2) =>
    match splitWs g1 with
    | [_method, url, _protocol] => some ⟨url, parseFloatQ g2⟩
    | _ => none

/-! ## UTF-8 decoding

`line.decode("utf-8")` in strict mode (`log_analyzer.py`, line 223): the
standard validating decoder, rejecting overlong forms, surrogates,
code points above U+10FFFF and truncated sequences. -/

/-- Strict UTF-8 decoding of a byte list into code points; `none` models
`UnicodeDecodeError`. -/
def utf8DecodeFrom : List Nat → Option (List Nat)
  | [] => some []
  | b :: bs =>
    if b < 128 then (utf8DecodeFrom bs).map (b :: ·)
    else if 194 ≤ b && b ≤ 223 then
      match bs with
      | b2 :: bs2 =>
        if 128 ≤ b2 && b2 ≤ 191 then
          (utf8DecodeFrom bs2).map (((b - 192) * 64 + (b2 - 128)) :: ·)
        else none
      | [] => none
    else if 224 ≤ b && b ≤ 239 then
      match bs with
      | b2 :: b3 :: bs2 =>
        let lo2 := if b = 224 then 160 else 128
        let hi2 := if b = 237 then 159 else 191
        if lo2 ≤ b2 && b2 ≤ hi2 && 128 ≤ b3 && b3 ≤ 191 then
          (utf8DecodeFrom bs2).map
            (((b - 224) * 4096 + (b2 - 128) * 64 + (b3 - 128)) :: ·)
        else none
      | _ => none
    else if 240 ≤ b && b ≤ 244 then
      match bs with
      | b2 :: b3 :: b4 :: bs2 =>
        let lo2 := if b = 240 then 144 else 128
        let hi2 := if b = 244 then 143 else 191
        if lo2 ≤ b2 && b2 ≤ hi2 && 128 ≤ b3 && b3 ≤ 191 && 128 ≤ b4 && b4 ≤ 191 then
          (utf8DecodeFrom bs2).map
            (((b - 240) * 262144 + (b2 - 128) * 4096 + (b3 - 128) * 64 + (b4 - 128)) :: ·)
        else none
      | _ => none
    else none

/-! ## The lazy request iterator -/

/-- Errors raised by the pipeline. `invalidExtension` is the
`ValueError("Invalid extension…")`, `decodeError` the `UnicodeDecodeError`,
`tooManyInvalidRecords` the `ValueError("Too many invalid rows…")`, and
`assertionFault` the `assert` in `_median` (together with the impossible
`[-1]` indexing of an empty list). -/
inductive PipeError where
  | invalidExtension
  | decodeError
  | tooManyInvalidRecords
  | assertionFault
  deriving DecidableEq, Repr

instance {ε α : Type} [DecidableEq ε] [DecidableEq α] : DecidableEq (Except ε α)
  | .error e, .error f => decidable_of_iff (e = f) (by simp)
  | .error _, .ok _ => isFalse (by simp)
  | .ok _, .error _ => isFalse (by simp)
  | .ok a, .ok b => decidable_of_iff (a = b) (by simp)

/-- Sequentially maps a fallible function, aborting at the first error: the
behaviour of a generator whose body raises. -/
def mapOrFail (f : α → Except ε β) : List α → Except ε (List β)
  | [] => .ok []
  | a :: as =>
    match f a with
    | .error e => .error e
    | .ok b => (mapOrFail f as).map (fun bs => b :: bs)

/-- `_iterate_over_requests` of `log_analyzer.py` (lines 196-239), modelled on
the already-split byte lines of the file (gzip decompression is transparent):
reject an unknown extension, then for each line decode UTF-8 — a failure
aborts the whole pass — and parse it into `some` request or `none`. -/
def iterateOverRequests (extension : String) (byteLines : List (List Nat)) :
    Except PipeError (List (Option LogRequest)) :=
  if extension ≠ "log" ∧ extension ≠ "gz" then .error .invalidExtension
  else
    mapOrFail (fun bl =>
      match utf8DecodeFrom bl with
      | none => .error .decodeError
      | some cs => .ok (parseLine cs)) byteLines

/-! ## Median and sorting -/

/-- `_median` (core.py lines 132-146).  The `assert` on an empty list is the
`none` result.  The source indexes the given list directly; the pipeline
always passes it an ascending-sorted list. -/
def _median (sorted_list : List ℚ) : Option ℚ :=
  if sorted_list.isEmpty then none
  else
    let n_items := sorted_list.length
    some ((1 / 2 : ℚ) *
      (sorted_list.getD ((n_items - 1) / 2) 0 + sorted_list.getD (n_items / 2) 0))

/-- Stable ascending insertion: `insertAsc x` places `x` before the first
element it is `≤`. -/
def insertAsc (x : ℚ) : List ℚ → List ℚ
  | [] => [x]
  | y :: ys => if x ≤ y then x :: y :: ys else y :: insertAsc x ys

/-- Python `sorted` on rationals: a stable ascending sort. -/
def sortAsc : List ℚ → List ℚ
  | [] => []
  | x :: xs => insertAsc x (sortAsc xs)

/-- Median of the ascending-sorted list, as the pipeline computes it
(`_median(sorted(times[url]))`). -/
def medianOfList (l : List ℚ) : Option ℚ := _median (sortAsc l)

/-! ## Aggregation (`_aggregate_stats_by_url`, core.py lines 149-195) -/

/-- Accumulators of the aggregation loop.  The source counts with floats
starting at `0.0`; the values are the natural numbers modelled here. -/
structure AggState where
  count_valid : Nat
  count_invalid : Nat
  time_valid : ℚ
  times : List (List Nat × List ℚ)
  deriving DecidableEq, Repr

/-- `times[request.url].append(request.time)` on a `defaultdict(list)`:
append to the existing group, or create a new group at the end (dict
insertion order = order of first appearance). -/
def addTime (times : List (List Nat × List ℚ)) (url : List Nat) (t : ℚ) :
    List (List Nat × List ℚ) :=
  match times with
  | [] => [(url, [t])]
  | (u, ts) :: rest =>
    if u = url then (u, ts ++ [t]) :: rest else (u, ts) :: addTime rest url t

/-- One iteration of the aggregation loop. -/
def aggStep (st : AggState) (r : Option LogRequest) : AggState :=
  match r with
  | none => { st with count_invalid := st.count_invalid + 1 }
  | some req =>
    { st with
      count_valid := st.count_valid + 1
      time_valid := st.time_valid + req.time
      times := addTime st.times req.url req.time }

/-- The full aggregation pass over the iterator's output. -/
def aggregateLoop (rs : List (Option LogRequest)) : AggState :=
  rs.foldl aggStep ⟨0, 0, 0, []⟩

/-- The invalid ratio as the source computes it:
`count_all = (count_invalid + count_valid) or 1.0` and then
`count_invalid / count_all`, so a wholly empty file gets ratio `0/1 = 0`. -/
def invalidRatio (rs : List (Option LogRequest)) : ℚ :=
  let st := aggregateLoop rs
  let count_all : ℚ :=
    if st.count_invalid + st.count_valid = 0 then 1
    else ((st.count_invalid + st.count_valid : Nat) : ℚ)
  (st.count_invalid : ℚ) / count_all

/-- `_aggregate_stats_by_url`: run the loop over the iterator's output, then
gate on the invalid ratio; on success return
`(count_valid, time_valid, times)`. -/
def aggregateStatsByUrl (rs : List (Option LogRequest))
    (allowed_invalid_part : ℚ) :
    Except PipeError (Nat × ℚ × List (List Nat × List ℚ)) :=
  let st := aggregateLoop rs
  if invalidRatio rs > allowed_invalid_part then .error .tooManyInvalidRecords
  else .ok (st.count_valid, st.time_valid, st.times)

/-! ## Ranking (`get_request_stats`, core.py lines 198-248) -/

/-- The `for url in times` loop building one `LogStat` per URL, in dict
insertion order.  The unreachable empty-group cases (`assert` in `_median`,
`[-1]` on an empty list) are the `assertionFault` error. -/
def buildStats (count_valid : Nat) (time_all : ℚ) :
    List (List Nat × List ℚ) → Except PipeError (List LogStat)
  | [] => .ok []
  | (url, ts) :: rest =>
    let url_sorted_times := sortAsc ts
    match _median url_sorted_times, url_sorted_times.getLast? with
    | some med, some mx =>
      (buildStats count_valid time_all rest).map (fun l =>
        { url := url
          count := ts.length
          count_perc := 100 * (ts.length : ℚ) / (count_valid : ℚ)
          time_sum := ts.sum
          time_perc := 100 * ts.sum / time_all
          time_avg := ts.sum / (ts.length : ℚ)
          time_max := mx
          time_med := med } :: l)
    | _, _ => .error .assertionFault

/-- Stable descending insertion by `time_sum`: keeps every element whose key
is strictly greater in front, so equal keys retain their original order —
the behaviour of Python's stable `sorted(…, reverse=True)`. -/
def insertByTimeSumDesc (x : LogStat) : List LogStat → List LogStat
  | [] => [x]
  | y :: ys =>
    if x.time_sum < y.time_sum then y :: insertByTimeSumDesc x ys
    else x :: y :: ys

/-- `sorted(stats, key=attrgetter("time_sum"), reverse=True)`. -/
def sortByTimeSumDesc : List LogStat → List LogStat
  | [] => []
  | x :: xs => insertByTimeSumDesc x (sortByTimeSumDesc xs)

/-- `get_request_stats` on the iterator's output: aggregate, build the
per-URL statistics, sort by `time_sum` descending (stable) and truncate to
the first `count` entries. -/
def getRequestStats (rs : List (Option LogRequest)) (count : Nat)
    (allowed_invalid_part : ℚ) : Except PipeError (List LogStat) :=
  match aggregateStatsByUrl rs allowed_invalid_part with
  | .error e => .error e
  | .ok (count_valid, time_all, times) =>
    match buildStats count_valid time_all times with
    | .error e => .error e
    | .ok stats => .ok ((sortByTimeSumDesc stats).take count)

/-- The whole pass over a file given as byte lines: the iterator composed
with `get_request_stats`. -/
def getRequestStatsFromFile (extension : String) (byteLines : List (List Nat))
    (count : Nat) (allowed_invalid_part : ℚ) : Except PipeError (List LogStat) :=
  match iterateOverRequests extension byteLines with
  | .error e => .error e
  | .ok rs => getRequestStats rs count allowed_invalid_part

/-! ## Specification-side views of a file's parse results -/

/-- Number of valid records of the file (lines yielding a request). -/
def countValidOf (rs : List (Option LogRequest)) : Nat :=
  rs.countP (·.isSome)

/-- Number of invalid lines of the file. -/
def countInvalidOf (rs : List (Option LogRequest)) : Nat :=
  rs.countP (·.isNone)

/-- The §3 invalid-line ratio `invalid / (invalid + valid)`; for a wholly
empty file both counts are 0 and the rational convention `0 / 0 = 0` yields
the specified ratio 0. -/
def invalidRatioSpec (rs : List (Option LogRequest)) : ℚ :=
  (countInvalidOf rs : ℚ) / ((countInvalidOf rs + countValidOf rs : Nat) : ℚ)

/-- Total duration of all valid records of the file. -/
def totalTimeOf (rs : List (Option LogRequest)) : ℚ :=
  ((rs.filterMap id).map (·.time)).sum

/-- One step of the first-appearance URL collection. -/
def duStep (acc : List (List Nat)) (r : Option LogRequest) : List (List Nat) :=
  match r with
  | none => acc
  | some req => if req.url ∈ acc then acc else acc ++ [req.url]

/-- The distinct URLs of the file, in order of first appearance. -/
def distinctUrls (rs : List (Option LogRequest)) : List (List Nat) :=
  rs.foldl duStep []

/-! ## The log locator

`LOG_FILENAME_PATTERN = ^nginx-access-ui\.log-(\d{8})\.(gz|log)$`.  The
pattern is fully anchored and deterministic, so it is embedded as a direct
structural parse of the filename.  Python compares filenames with `max`,
i.e. by the code-point lexicographic string order, which is exactly Lean's
`String` order (`List.lt` on the character list). -/

/-- The literal prefix of the filename pattern. -/
def logPrefix : List Char := "nginx-access-ui.log-".data

/-- The character class `\d` of the filename pattern. -/
def isDigitChar (c : Char) : Bool := 48 ≤ c.toNat && c.toNat ≤ 57

/-- `LOG_FILENAME_PATTERN` as a parse: on a match, the 8 date characters and
the extension (`"gz"` or `"log"`). -/
def filenameMatch (s : String) : Option (List Char × String) :=
  if s.data.take 20 = logPrefix then
    if ((s.data.drop 20).take 8).length = 8 ∧ ((s.data.drop 20).take 8).all isDigitChar then
      match (s.data.drop 20).drop 8 with
      | '.' :: ext =>
        if ext = ['g', 'z'] ∨ ext = ['l', 'o', 'g'] then
          some ((s.data.drop 20).take 8, String.mk ext)
        else none
      | _ => none
    else none
  else none

/-- Does the filename match `LOG_FILENAME_PATTERN`? -/
def matchesLogFilename (s : String) : Bool := (filenameMatch s).isSome

/-- Numeric value of a digit-character run (`YYYYMMDD` read as a number;
calendar order of valid dates coincides with this numeric order). -/
def charDigitsVal (l : List Char) : Nat :=
  l.foldl (fun n c => n * 10 + (c.toNat - 48)) 0

/-- The embedded date of a matching filename, as the number `YYYYMMDD`. -/
def dateNatOf (s : String) : Nat :=
  match filenameMatch s with
  | some (d, _) => charDigitsVal d
  | none => 0

/-- Python's `str` comparison: lexicographic by code point, a proper prefix
being smaller. -/
def codepointLt : List Char → List Char → Bool
  | [], [] => false
  | [], _ :: _ => true
  | _ :: _, [] => false
  | a :: as, b :: bs =>
    if a < b then true else if b < a then false else codepointLt as bs

/-- One step of Python's `max`: keep the greater string. -/
def maxStep (acc : Option String) (f : String) : Option String :=
  match acc with
  | none => some f
  | some m => if codepointLt m.data f.data then some f else some m

/-- `_most_recent_filename` (core.py lines 30-51):
`max(filter(LOG_FILENAME_PATTERN.match, filenames))`, `None` when the filter
is empty (the `ValueError` of `max` on an empty iterable is caught). -/
def mostRecentFilename (filenames : List String) : Option String :=
  (filenames.filter matchesLogFilename).foldl maxStep none

/-- Gregorian leap year, as `datetime` uses it. -/
def isLeapYear (y : Nat) : Bool := y % 4 == 0 && (y % 100 != 0 || y % 400 == 0)

/-- Days in a month of the proleptic Gregorian calendar. -/
def daysInMonth (y m : Nat) : Nat :=
  if m == 2 then (if isLeapYear y then 29 else 28)
  else if m == 4 || m == 6 || m == 9 || m == 11 then 30
  else 31

/-- Does `datetime.strptime(d, "%Y%m%d")` succeed on the 8 digit characters?
(`datetime` requires year ≥ 1, a real month and a real day of that month.) -/
def isValidDate8 (d : List Char) : Bool :=
  match d with
  | [y1, y2, y3, y4, m1, m2, d1, d2] =>
    let y := charDigitsVal [y1, y2, y3, y4]
    let m := charDigitsVal [m1, m2]
    let dd := charDigitsVal [d1, d2]
    1 ≤ y && 1 ≤ m && m ≤ 12 && 1 ≤ dd && dd ≤ daysInMonth y m
  | _ => false

/-- The selected log file.  `path` is modelled as the bare filename (the
source stores `os.path.abspath(os.path.join(directory, filename))`, a pure
path decoration of the same choice); `date` is the embedded `YYYYMMDD`
number, whose order on valid dates is the `datetime` order. -/
structure LogFile where
  path : String
  date : Nat
  extension : String
  deriving DecidableEq, Repr

/-- The faults of the locator: `invalidDirectory` is the `TypeError` for a
missing directory, `noValidLogs` the `ValueError("There are no valid
logs.")`, `invalidDate` the `ValueError` of `strptime` on a nonexistent
date, `matchFault` the (unreachable) `AttributeError` of `.groups()` on a
failed re-match. -/
inductive LocateError where
  | invalidDirectory
  | noValidLogs
  | invalidDate
  | matchFault
  deriving DecidableEq, Repr

/-- `find_most_recent_log` of `log_analyzer/core.py` (lines 54-84).  A
directory is its listing; `none` models a path that is not a directory.
The maximal matching filename is chosen by plain string `max` before any
date validation; `strptime` then faults on a syntactically invalid date. -/
def findMostRecentLog (dir : Option (List String)) : Except LocateError LogFile :=
  match dir with
  | none => .error .invalidDirectory
  | some listing =>
    match mostRecentFilename listing with
    | none => .error .noValidLogs
    | some name =>
      match filenameMatch name with
      | none => .error .matchFault
      | some (d, ext) =>
        if isValidDate8 d then .ok ⟨name, charDigitsVal d, ext⟩
        else .error .invalidDate

/-- One step of the selection loop of `find_most_recent_log` in
`log_analyzer.py` (lines 170-184): skip non-matching names, skip names whose
date `strptime` rejects (`except ValueError: continue`), keep the entry
whose date is strictly greater than the best so far. -/
def mainLocStep (acc : Option LogFile) (filename : String) : Option LogFile :=
  match filenameMatch filename with
  | none => acc
  | some (d, ext) =>
    if isValidDate8 d then
      match acc with
      | none => some ⟨filename, charDigitsVal d, ext⟩
      | some best =>
        if best.date < charDigitsVal d then some ⟨filename, charDigitsVal d, ext⟩
        else acc
    else acc

/-- `find_most_recent_log` of `log_analyzer.py` (lines 144-193): returns
`none` (benign) when no entry has a matching name and a valid date. -/
def findMostRecentLogMain (dir : Option (List String)) :
    Except LocateError (Option LogFile) :=
  match dir with
  | none => .error .invalidDirectory
  | some listing => .ok (listing.foldl mainLocStep none)

/-- The `LogStat` that `buildStats` constructs for one group, written as a
total function (the pipeline only builds it for non-empty groups, where the
median and the maximum exist). -/
def statOf (count_valid : Nat) (time_all : ℚ) (g : List Nat × List ℚ) : LogStat :=
  { url := g.1
    count := g.2.length
    count_perc := 100 * (g.2.length : ℚ) / (count_valid : ℚ)
    time_sum := g.2.sum
    time_perc := 100 * g.2.sum / time_all
    time_avg := g.2.sum / (g.2.length : ℚ)
    time_max := (sortAsc g.2).getLast?.getD 0
    time_med := (_median (sortAsc g.2)).getD 0 }

/-! ## Concrete inputs used by the witnesses -/

/-- Code points of a string. -/
def cps (s : String) : List Nat := s.data.map Char.toNat

/-- A parse-result sequence with 8 valid and 4 invalid lines, shaped like the
repository's `nginx-access-ui.log-20190102.log` test fixture: 6 records for
`/api/bbb` with durations summing to 3 (max 0.8, median 0.5), one record
each for two further URLs. -/
def rs84 : List (Option LogRequest) :=
  [some ⟨cps "/api/bbb", 1/2⟩, some ⟨cps "/api/bbb", 1/2⟩,
   some ⟨cps "/api/bbb", 1/2⟩, some ⟨cps "/api/bbb", 1/2⟩,
   some ⟨cps "/api/bbb", 1/5⟩, some ⟨cps "/api/bbb", 4/5⟩,
   some ⟨cps "/aaa", 1/5⟩, some ⟨cps "/ccc", 1/5⟩,
   none, none, none, none]

/-- A wholly valid three-URL file with distinct time sums 4 > 2 > 1. -/
def rs3 : List (Option LogRequest) :=
  [some ⟨cps "/a", 4⟩, some ⟨cps "/b", 2⟩, some ⟨cps "/c", 1⟩]

/-- A well-formed log line, missing only the trailing newline. -/
def wfLine : List Nat :=
  cps "127.0.0.1 - - [01/Jan/2019] \"GET /api/bbb HTTP/1.1\" 200 100 0.5"

/-- A directory listing with a non-matching entry, two dates and a same-date
`.gz`/`.log` pair. -/
def listing4 : List String :=
  ["image.jpg", "nginx-access-ui.log-20170630.gz",
   "nginx-access-ui.log-20170701.gz", "nginx-access-ui.log-20170701.log"]

/-- The statistics the pipeline computes for `rs3`, in `time_sum` order. -/
def stats3 : List LogStat :=
  [{ url := cps "/a", count := 1, count_perc := 100/3, time_sum := 4,
     time_perc := 400/7, time_avg := 4, time_max := 4, time_med := 4 },
   { url := cps "/b", count := 1, count_perc := 100/3, time_sum := 2,
     time_perc := 200/7, time_avg := 2, time_max := 2, time_med := 2 },
   { url := cps "/c", count := 1, count_perc := 100/3, time_sum := 1,
     time_perc := 100/7, time_avg := 1, time_max := 1, time_med := 1 }]

/-! ## Lemmas about the ascending sort -/

theorem insertAsc_perm (x : ℚ) (l : List ℚ) : (insertAsc x l).Perm (x :: l) := by
  induction l with
  | nil => simp [insertAsc]
  | cons y ys ih =>
    by_cases h : x ≤ y
    · simp [insertAsc, h]
    · simp only [insertAsc, if_neg h]
      exact (ih.cons y).trans (List.Perm.swap x y ys)

theorem sortAsc_perm (l : List ℚ) : (sortAsc l).Perm l := by
  induction l with
  | nil => simp [sortAsc]
  | cons x xs ih =>
    exact (insertAsc_perm x (sortAsc xs)).trans (ih.cons x)

theorem sortAsc_length (l : List ℚ) : (sortAsc l).length = l.length :=
  (sortAsc_perm l).length_eq

theorem mem_insertAsc {a x : ℚ} {l : List ℚ} (h : a ∈ insertAsc x l) :
    a = x ∨ a ∈ l :=
  List.mem_cons.mp ((insertAsc_perm x l).mem_iff.mp h)

theorem insertAsc_sorted (x : ℚ) {l : List ℚ} (h : l.Sorted (· ≤ ·)) :
    (insertAsc x l).Sorted (· ≤ ·) := by
  induction l with
  | nil => simp [insertAsc]
  | cons y ys ih =>
    rcases List.sorted_cons.mp h with ⟨hy, hys⟩
    by_cases hxy : x ≤ y
    · simp only [insertAsc, if_pos hxy]
      refine List.sorted_cons.mpr ⟨?_, h⟩
      intro b hb
      rcases List.mem_cons.mp hb with hb | hb
      · exact hb ▸ hxy
      · exact hxy.trans (hy b hb)
    · simp only [insertAsc, if_neg hxy]
      refine List.sorted_cons.mpr ⟨?_, ih hys⟩
      intro b hb
      rcases mem_insertAsc hb with hb | hb
      · exact hb ▸ le_of_lt (lt_of_not_le hxy)
      · exact hy b hb

theorem sortAsc_sorted (l : List ℚ) : (sortAsc l).Sorted (· ≤ ·) := by
  induction l with
  | nil => simp [sortAsc]
  | cons x xs ih => exact insertAsc_sorted x ih

/-! ## Lemmas about the stable descending sort by `time_sum` -/

theorem insertDesc_perm (x : LogStat) (l : List LogStat) :
    (insertByTimeSumDesc x l).Perm (x :: l) := by
  induction l with
  | nil => simp [insertByTimeSumDesc]
  | cons y ys ih =>
    by_cases h : x.time_sum < y.time_sum
    · simp only [insertByTimeSumDesc, if_pos h]
      exact (ih.cons y).trans (List.Perm.swap x y ys)
    · simp [insertByTimeSumDesc, if_neg h]

theorem sortDesc_perm (l : List LogStat) : (sortByTimeSumDesc l).Perm l := by
  induction l with
  | nil => simp [sortByTimeSumDesc]
  | cons x xs ih =>
    exact (insertDesc_perm x (sortByTimeSumDesc xs)).trans (ih.cons x)

theorem mem_insertDesc {a x : LogStat} {l : List LogStat}
    (h : a ∈ insertByTimeSumDesc x l) : a = x ∨ a ∈ l :=
  List.mem_cons.mp ((insertDesc_perm x l).mem_iff.mp h)

theorem insertDesc_pairwise (x : LogStat) {l : List LogStat}
    (h : l.Pairwise (fun a b => b.time_sum ≤ a.time_sum)) :
    (insertByTimeSumDesc x l).Pairwise (fun a b => b.time_sum ≤ a.time_sum) := by
  induction l with
  | nil => simp [insertByTimeSumDesc]
  | cons y ys ih =>
    rcases List.pairwise_cons.mp h with ⟨hy, hys⟩
    by_cases hxy : x.time_sum < y.time_sum
    · simp only [insertByTimeSumDesc, if_pos hxy]
      refine List.pairwise_cons.mpr ⟨?_, ih hys⟩
      intro b hb
      rcases mem_insertDesc hb with hb | hb
      · exact hb ▸ le_of_lt hxy
      · exact hy b hb
    · simp only [insertByTimeSumDesc, if_neg hxy]
      refine List.pairwise_cons.mpr ⟨?_, h⟩
      intro b hb
      rcases List.mem_cons.mp hb with hb | hb
      · exact hb ▸ le_of_not_lt hxy
      · exact (hy b hb).trans (le_of_not_lt hxy)

theorem sortDesc_pairwise (l : List LogStat) :
    (sortByTimeSumDesc l).Pairwise (fun a b => b.time_sum ≤ a.time_sum) := by
  induction l with
  | nil => simp [sortByTimeSumDesc]
  | cons x xs ih => exact insertDesc_pairwise x ih

theorem filter_insertDesc (x : LogStat) (l : List LogStat) (v : ℚ) :
    (insertByTimeSumDesc x l).filter (fun s => decide (s.time_sum = v))
      = (x :: l).filter (fun s => decide (s.time_sum = v)) := by
  induction l with
  | nil => simp [insertByTimeSumDesc]
  | cons y ys ih =>
    by_cases hxy : x.time_sum < y.time_sum
    · have hxv : ¬ (x.time_sum = v ∧ y.time_sum = v) := by
        rintro ⟨hx, hy⟩; exact absurd (hx.trans hy.symm) (ne_of_lt hxy)
      simp only [insertByTimeSumDesc, if_pos hxy]
      by_cases hy : y.time_sum = v
      · have hx : ¬ x.time_sum = v := fun hx => hxv ⟨hx, hy⟩
        simp [List.filter_cons, hx, hy, ih]
      · by_cases hx : x.time_sum = v <;> simp [List.filter_cons, hx, hy, ih]
    · simp [insertByTimeSumDesc, if_neg hxy]

theorem sortDesc_filter (l : List LogStat) (v : ℚ) :
    (sortByTimeSumDesc l).filter (fun s => decide (s.time_sum = v))
      = l.filter (fun s => decide (s.time_sum = v)) := by
  induction l with
  | nil => simp [sortByTimeSumDesc]
  | cons x xs ih =>
    calc (insertByTimeSumDesc x (sortByTimeSumDesc xs)).filter
            (fun s => decide (s.time_sum = v))
        = (x :: sortByTimeSumDesc xs).filter (fun s => decide (s.time_sum = v)) :=
          filter_insertDesc x (sortByTimeSumDesc xs) v
      _ = (x :: xs).filter (fun s => decide (s.time_sum = v)) := by
          by_cases hx : x.time_sum = v <;> simp [List.filter_cons, hx, ih]

/-! ## Lemmas about the aggregation loop -/

theorem foldl_aggStep_spec (rs : List (Option LogRequest)) (st : AggState) :
    (rs.foldl aggStep st).count_valid = st.count_valid + countValidOf rs
  ∧ (rs.foldl aggStep st).count_invalid = st.count_invalid + countInvalidOf rs
  ∧ (rs.foldl aggStep st).time_valid = st.time_valid + totalTimeOf rs := by
  induction rs generalizing st with
  | nil => simp [countValidOf, countInvalidOf, totalTimeOf]
  | cons r rest ih =>
    rcases ih (aggStep st r) with ⟨h1, h2, h3⟩
    refine ⟨?_, ?_, ?_⟩
    · rw [List.foldl_cons, h1]
      cases r <;>
        (simp [aggStep, countValidOf, List.countP_cons]; try omega)
    · rw [List.foldl_cons, h2]
      cases r <;>
        (simp [aggStep, countInvalidOf, List.countP_cons]; try omega)
    · rw [List.foldl_cons, h3]
      cases r <;> simp [aggStep, totalTimeOf]
      ring

theorem aggregateLoop_count_valid (rs : List (Option LogRequest)) :
    (aggregateLoop rs).count_valid = countValidOf rs := by
  have := (foldl_aggStep_spec rs ⟨0, 0, 0, []⟩).1
  simpa [aggregateLoop] using this

theorem aggregateLoop_count_invalid (rs : List (Option LogRequest)) :
    (aggregateLoop rs).count_invalid = countInvalidOf rs := by
  have := (foldl_aggStep_spec rs ⟨0, 0, 0, []⟩).2.1
  simpa [aggregateLoop] using this

theorem aggregateLoop_time_valid (rs : List (Option LogRequest)) :
    (aggregateLoop rs).time_valid = totalTimeOf rs := by
  have := (foldl_aggStep_spec rs ⟨0, 0, 0, []⟩).2.2
  simpa [aggregateLoop] using this

/-- The ratio the code computes (`count_all = total or 1.0`) equals the §3
ratio `invalid / (invalid + valid)` — for the empty file both are 0. -/
theorem invalidRatio_eq_spec (rs : List (Option LogRequest)) :
    invalidRatio rs = invalidRatioSpec rs := by
  unfold invalidRatio invalidRatioSpec
  simp only [aggregateLoop_count_valid, aggregateLoop_count_invalid]
  by_cases h : countInvalidOf rs + countValidOf rs = 0
  · rcases Nat.add_eq_zero.mp h with ⟨h1, _⟩
    simp [h, h1]
  · simp [h]

/-! ## Lemmas about the per-URL groups and `buildStats` -/

theorem sortAsc_ne_nil {ts : List ℚ} (h : ts ≠ []) : sortAsc ts ≠ [] := by
  intro hh
  exact h (List.length_eq_zero.mp (by rw [← sortAsc_length ts, hh]; rfl))

theorem buildStats_ok {groups : List (List Nat × List ℚ)} (cv : Nat) (t : ℚ)
    (h : ∀ g ∈ groups, g.2 ≠ []) :
    buildStats cv t groups = .ok (groups.map (statOf cv t)) := by
  induction groups with
  | nil => simp [buildStats]
  | cons g rest ih =>
    obtain ⟨url, ts⟩ := g
    have hts : ts ≠ [] := h (url, ts) (by simp)
    have hs : sortAsc ts ≠ [] := sortAsc_ne_nil hts
    have hmed : _median (sortAsc ts)
        = some ((1 / 2 : ℚ) * ((sortAsc ts).getD (((sortAsc ts).length - 1) / 2) 0
            + (sortAsc ts).getD ((sortAsc ts).length / 2) 0)) := by
      unfold _median
      rw [if_neg (by simpa [List.isEmpty_iff] using hs)]
    obtain ⟨mx, hx⟩ : ∃ m, (sortAsc ts).getLast? = some m := by
      cases hsort : sortAsc ts with
      | nil => exact absurd hsort hs
      | cons a as => exact ⟨(a :: as).getLast (by simp), List.getLast?_eq_getLast _ _⟩
    rw [buildStats, hmed, hx, ih (fun g hg => h g (List.mem_cons_of_mem _ hg))]
    simp [statOf, hmed, hx, Except.map]

theorem addTime_nonempty {times : List (List Nat × List ℚ)} {url : List Nat} {t : ℚ}
    (h : ∀ g ∈ times, g.2 ≠ []) : ∀ g ∈ addTime times url t, g.2 ≠ [] := by
  induction times with
  | nil => simp [addTime]
  | cons g0 rest ih =>
    obtain ⟨u, ts⟩ := g0
    intro g hg
    by_cases hu : u = url
    · rw [addTime, if_pos hu] at hg
      rcases List.mem_cons.mp hg with hg | hg
      · rw [hg]; simp
      · exact h g (List.mem_cons_of_mem _ hg)
    · rw [addTime, if_neg hu] at hg
      rcases List.mem_cons.mp hg with hg | hg
      · rw [hg]; exact h (u, ts) (by simp)
      · exact ih (fun g hg => h g (List.mem_cons_of_mem _ hg)) g hg

theorem foldl_times_nonempty (rs : List (Option LogRequest)) (st : AggState)
    (h : ∀ g ∈ st.times, g.2 ≠ []) :
    ∀ g ∈ (rs.foldl aggStep st).times, g.2 ≠ [] := by
  induction rs generalizing st with
  | nil => exact h
  | cons r rest ih =>
    rw [List.foldl_cons]
    refine ih (aggStep st r) ?_
    cases r with
    | none => exact h
    | some req => exact addTime_nonempty h

theorem aggregateLoop_times_nonempty (rs : List (Option LogRequest)) :
    ∀ g ∈ (aggregateLoop rs).times, g.2 ≠ [] :=
  foldl_times_nonempty rs ⟨0, 0, 0, []⟩ (by simp)

theorem addTime_lenSum (times : List (List Nat × List ℚ)) (url : List Nat) (t : ℚ) :
    ((addTime times url t).map (fun g => g.2.length)).sum
      = ((times.map (fun g => g.2.length)).sum) + 1 := by
  induction times with
  | nil => simp [addTime]
  | cons g0 rest ih =>
    obtain ⟨u, ts⟩ := g0
    by_cases hu : u = url
    · rw [addTime, if_pos hu]; simp; omega
    · rw [addTime, if_neg hu]; simp [ih]; omega

theorem foldl_times_lenSum (rs : List (Option LogRequest)) (st : AggState) :
    (((rs.foldl aggStep st).times).map (fun g => g.2.length)).sum
      = ((st.times.map (fun g => g.2.length)).sum) + countValidOf rs := by
  induction rs generalizing st with
  | nil => simp [countValidOf]
  | cons r rest ih =>
    rw [List.foldl_cons, ih (aggStep st r)]
    cases r with
    | none => simp [aggStep, countValidOf, List.countP_cons]
    | some req =>
      simp [aggStep, countValidOf, List.countP_cons, addTime_lenSum]
      omega

theorem aggregateLoop_lenSum (rs : List (Option LogRequest)) :
    (((aggregateLoop rs).times).map (fun g => g.2.length)).sum = countValidOf rs := by
  have := foldl_times_lenSum rs ⟨0, 0, 0, []⟩
  simpa [aggregateLoop] using this

theorem addTime_map_fst (times : List (List Nat × List ℚ)) (url : List Nat) (t : ℚ) :
    (addTime times url t).map Prod.fst
      = if url ∈ times.map Prod.fst then times.map Prod.fst
        else times.map Prod.fst ++ [url] := by
  induction times with
  | nil => simp [addTime]
  | cons g0 rest ih =>
    obtain ⟨u, ts⟩ := g0
    by_cases hu : u = url
    · rw [addTime, if_pos hu]
      simp [hu]
    · rw [addTime, if_neg hu]
      have hne : url ∈ u :: rest.map Prod.fst ↔ url ∈ rest.map Prod.fst := by
        constructor
        · intro hh
          rcases List.mem_cons.mp hh with hh | hh
          · exact absurd hh.symm hu
          · exact hh
        · exact List.mem_cons_of_mem u
      by_cases hmem : url ∈ rest.map Prod.fst
      · simp only [List.map_cons, ih, if_pos hmem]
        rw [if_pos (by simpa [hne] using hmem)]
      · simp only [List.map_cons, ih, if_neg hmem]
        rw [if_neg (by simpa [hne] using hmem)]
        simp

theorem foldl_times_map_fst (rs : List (Option LogRequest)) (st : AggState)
    (acc : List (List Nat)) (h : st.times.map Prod.fst = acc) :
    ((rs.foldl aggStep st).times).map Prod.fst = rs.foldl duStep acc := by
  induction rs generalizing st acc with
  | nil => simpa using h
  | cons r rest ih =>
    rw [List.foldl_cons, List.foldl_cons]
    refine ih (aggStep st r) (duStep acc r) ?_
    cases r with
    | none => simpa [aggStep, duStep] using h
    | some req =>
      simp only [aggStep, duStep, addTime_map_fst, h]

theorem aggregateLoop_map_fst (rs : List (Option LogRequest)) :
    ((aggregateLoop rs).times).map Prod.fst = distinctUrls rs :=
  foldl_times_map_fst rs ⟨0, 0, 0, []⟩ [] (by simp)

/-- Successful aggregation returns exactly the loop's accumulators. -/
theorem aggregateStatsByUrl_ok {rs : List (Option LogRequest)} {q : ℚ}
    {v : Nat × ℚ × List (List Nat × List ℚ)}
    (h : aggregateStatsByUrl rs q = .ok v) :
    v = ((aggregateLoop rs).count_valid, (aggregateLoop rs).time_valid,
      (aggregateLoop rs).times) := by
  unfold aggregateStatsByUrl at h
  by_cases hg : invalidRatio rs > q
  · rw [if_pos hg] at h
    exact absurd h (by simp)
  · rw [if_neg hg] at h
    exact (Except.ok.inj h).symm

/-! ## Claims C1, C7, C8 -/

/-- C1: after a pass that completes without a fatal fault, aggregation fails
with `TooManyInvalidRecords` exactly when `invalid / (invalid + valid)`
strictly exceeds `allowed_invalid_fraction` — the ratio is taken over the
whole consumed sequence; a file with 8 valid and 4 invalid lines faults
under allowance 0.2 and succeeds under 0.4 with `count_valid = 8`. -/
theorem invalid_ratio_gate :
    (∀ (rs : List (Option LogRequest)) (q : ℚ),
      aggregateStatsByUrl rs q = .error .tooManyInvalidRecords
        ↔ invalidRatioSpec rs > q)
  ∧ aggregateStatsByUrl rs84 (1/5) = .error .tooManyInvalidRecords
  ∧ aggregateStatsByUrl rs84 (2/5) = .ok (8, 17/5,
      [(cps "/api/bbb", [1/2, 1/2, 1/2, 1/2, 1/5, 4/5]),
       (cps "/aaa", [1/5]), (cps "/ccc", [1/5])]) := by
  refine ⟨fun rs q => ?_, ?_, ?_⟩
  · unfold aggregateStatsByUrl
    by_cases h : invalidRatio rs > q
    · simp only [if_pos h, true_iff]
      exact invalidRatio_eq_spec rs ▸ h
    · simp only [if_neg h]
      constructor
      · intro hc; exact absurd hc (by simp)
      · intro hc; exact absurd (invalidRatio_eq_spec rs ▸ hc) h
  · with_unfolding_all decide
  · set_option maxRecDepth 10000 in with_unfolding_all decide

/-- C7: the pipeline's median of a non-empty duration list is half the sum
of the elements at 0-based positions `(n-1)/2` and `n/2` of the
ascending-sorted list (which is an ordered permutation of the input); the
spec's four sample medians hold, and the median of an empty list is the
assertion fault. -/
theorem median_spec :
    (∀ l : List ℚ, l ≠ [] →
      (sortAsc l).Perm l ∧ (sortAsc l).Sorted (· ≤ ·)
      ∧ medianOfList l = some ((1 / 2 : ℚ) *
          ((sortAsc l).getD ((l.length - 1) / 2) 0 + (sortAsc l).getD (l.length / 2) 0)))
  ∧ _median [] = none
  ∧ (∀ x : ℚ, medianOfList [x] = some x)
  ∧ medianOfList [1, 1, 1] = some 1
  ∧ medianOfList [1, 2, 3, 4, 5, 6] = some (7/2)
  ∧ medianOfList [1, 4, 4, 4, 1] = some 4 := by
  refine ⟨fun l hl => ⟨sortAsc_perm l, sortAsc_sorted l, ?_⟩, by rfl, fun x => ?_, ?_, ?_, ?_⟩
  · have hne : ¬ (sortAsc l).isEmpty := by
      simp only [List.isEmpty_iff]
      intro h
      exact hl (List.length_eq_zero.mp (by rw [← sortAsc_length l, h]; rfl))
    unfold medianOfList _median
    rw [if_neg hne, sortAsc_length]
  · have hs : sortAsc [x] = [x] := by simp [sortAsc, insertAsc]
    unfold medianOfList
    rw [hs]
    simp [_median]
    ring
  · with_unfolding_all decide
  · with_unfolding_all decide
  · with_unfolding_all decide

/-- C7 witness: the theorem applied to the concrete list `[1, 4, 4, 4, 1]`. -/
theorem median_spec_witness :
    ([1, 4, 4, 4, 1] : List ℚ) ≠ []
  ∧ ((sortAsc [1, 4, 4, 4, 1]).Perm [1, 4, 4, 4, 1]
      ∧ (sortAsc [1, 4, 4, 4, 1]).Sorted (· ≤ ·)
      ∧ medianOfList [1, 4, 4, 4, 1] = some ((1 / 2 : ℚ) *
          ((sortAsc [1, 4, 4, 4, 1]).getD ((([1, 4, 4, 4, 1] : List ℚ).length - 1) / 2) 0
            + (sortAsc [1, 4, 4, 4, 1]).getD (([1, 4, 4, 4, 1] : List ℚ).length / 2) 0))) :=
  ⟨by simp, median_spec.1 [1, 4, 4, 4, 1] (by simp)⟩

/-- C8: a wholly empty file has invalid ratio 0 (no division-by-zero), the
gate passes for every allowance ≥ 0, and aggregation returns the empty
result, not a fault. -/
theorem empty_file_benign :
    ∀ q : ℚ, 0 ≤ q → ∀ k : Nat,
      getRequestStats [] k q = .ok []
    ∧ aggregateStatsByUrl [] q = .ok (0, 0, [])
    ∧ invalidRatio [] = 0 := by
  intro q hq k
  have hr : invalidRatio [] = 0 := by
    simp [invalidRatio, aggregateLoop]
  have hgate : ¬ invalidRatio [] > q := by
    rw [hr]; exact not_lt.mpr hq
  refine ⟨?_, ?_, hr⟩
  · simp [getRequestStats, aggregateStatsByUrl, if_neg hgate, aggregateLoop,
      buildStats, sortByTimeSumDesc]
  · simp [aggregateStatsByUrl, if_neg hgate, aggregateLoop]

/-- C8 witness: the empty file with the default allowance 0.2 and the
default `top_k` 1000. -/
theorem empty_file_benign_witness :
    (0 : ℚ) ≤ 1/5
  ∧ (getRequestStats [] 1000 (1/5) = .ok []
      ∧ aggregateStatsByUrl [] (1/5) = .ok (0, 0, [])
      ∧ invalidRatio [] = 0) :=
  ⟨by norm_num, empty_file_benign (1/5) (by norm_num) 1000⟩

/-! ## Claims C2 and C3 -/

/-- C2: a successful aggregation returns the per-URL statistics sorted by
`time_sum` descending — stably, so equal `time_sum` keeps the order of first
appearance (the unsorted statistics list enumerates the URLs in first-
appearance order) — truncated to the first `top_k` entries; with at least 3
distinct URLs, `top_k = k ≤ 3` gives exactly `k` results. -/
theorem ranking_topk :
    ∀ (rs : List (Option LogRequest)) (k : Nat) (q : ℚ) (out : List LogStat),
    getRequestStats rs k q = .ok out →
    ∃ stats,
      buildStats (aggregateLoop rs).count_valid (aggregateLoop rs).time_valid
          (aggregateLoop rs).times = .ok stats
      ∧ out = (sortByTimeSumDesc stats).take k
      ∧ out.Pairwise (fun a b => b.time_sum ≤ a.time_sum)
      ∧ (∀ v : ℚ, (sortByTimeSumDesc stats).filter (fun s => decide (s.time_sum = v))
            = stats.filter (fun s => decide (s.time_sum = v)))
      ∧ stats.map LogStat.url = distinctUrls rs
      ∧ out.length = min k (distinctUrls rs).length
      ∧ (3 ≤ (distinctUrls rs).length → k ≤ 3 → out.length = k) := by
  intro rs k q out h
  unfold getRequestStats at h
  cases hagg : aggregateStatsByUrl rs q with
  | error e => rw [hagg] at h; exact absurd h (by simp)
  | ok v =>
    have hv := aggregateStatsByUrl_ok hagg
    subst hv
    rw [hagg] at h
    simp only [] at h
    have hb := buildStats_ok (aggregateLoop rs).count_valid
      (aggregateLoop rs).time_valid (aggregateLoop_times_nonempty rs)
    rw [hb] at h
    simp only [] at h
    have hout : out = (sortByTimeSumDesc ((aggregateLoop rs).times.map
        (statOf (aggregateLoop rs).count_valid (aggregateLoop rs).time_valid))).take k :=
      (Except.ok.inj h).symm
    set stats := (aggregateLoop rs).times.map
      (statOf (aggregateLoop rs).count_valid (aggregateLoop rs).time_valid) with hstats
    have hmapurl : stats.map LogStat.url = distinctUrls rs := by
      rw [hstats, List.map_map]
      have : (LogStat.url ∘ statOf (aggregateLoop rs).count_valid
          (aggregateLoop rs).time_valid) = Prod.fst := by
        funext g; rfl
      rw [this, aggregateLoop_map_fst]
    have hlen : stats.length = (distinctUrls rs).length := by
      rw [← hmapurl, List.length_map]
      simp [hstats]
    have houtlen : out.length = min k (distinctUrls rs).length := by
      rw [hout, List.length_take, (sortDesc_perm stats).length_eq, hlen]
    refine ⟨stats, hb, hout, ?_, fun v => sortDesc_filter stats v, hmapurl, houtlen, ?_⟩
    · rw [hout]
      exact (sortDesc_pairwise stats).sublist (List.take_sublist k _)
    · intro h3 hk
      rw [houtlen]
      exact Nat.min_eq_left (hk.trans h3)

/-- C2 witness: the three-URL file `rs3` with `top_k = 2`. -/
theorem ranking_topk_witness :
    getRequestStats rs3 2 1 = .ok (stats3.take 2)
  ∧ ∃ stats,
      buildStats (aggregateLoop rs3).count_valid (aggregateLoop rs3).time_valid
          (aggregateLoop rs3).times = .ok stats
      ∧ stats3.take 2 = (sortByTimeSumDesc stats).take 2
      ∧ (stats3.take 2).Pairwise (fun a b => b.time_sum ≤ a.time_sum)
      ∧ (∀ v : ℚ, (sortByTimeSumDesc stats).filter (fun s => decide (s.time_sum = v))
            = stats.filter (fun s => decide (s.time_sum = v)))
      ∧ stats.map LogStat.url = distinctUrls rs3
      ∧ (stats3.take 2).length = min 2 (distinctUrls rs3).length
      ∧ (3 ≤ (distinctUrls rs3).length → 2 ≤ 3 → (stats3.take 2).length = 2) := by
  have h : getRequestStats rs3 2 1 = .ok (stats3.take 2) := by
    with_unfolding_all decide
  exact ⟨h, ranking_topk rs3 2 1 _ h⟩

/-- C3: for every successful aggregation, the per-URL counts (before
truncation) sum to the file's valid-record count, and every statistic's
`count_perc` and `time_perc` are relative to the whole file's valid records
and total duration — also after the `top_k` truncation. -/
theorem counts_and_percentages :
    ∀ (rs : List (Option LogRequest)) (k : Nat) (q : ℚ) (out : List LogStat),
    getRequestStats rs k q = .ok out →
    ∃ stats,
      buildStats (aggregateLoop rs).count_valid (aggregateLoop rs).time_valid
          (aggregateLoop rs).times = .ok stats
      ∧ (stats.map LogStat.count).sum = countValidOf rs
      ∧ (∀ s ∈ stats, s.count_perc = 100 * (s.count : ℚ) / (countValidOf rs : ℚ)
          ∧ s.time_perc = 100 * s.time_sum / totalTimeOf rs)
      ∧ (∀ s ∈ out, s.count_perc = 100 * (s.count : ℚ) / (countValidOf rs : ℚ)
          ∧ s.time_perc = 100 * s.time_sum / totalTimeOf rs) := by
  intro rs k q out h
  unfold getRequestStats at h
  cases hagg : aggregateStatsByUrl rs q with
  | error e => rw [hagg] at h; exact absurd h (by simp)
  | ok v =>
    have hv := aggregateStatsByUrl_ok hagg
    subst hv
    rw [hagg] at h
    simp only [] at h
    have hb := buildStats_ok (aggregateLoop rs).count_valid
      (aggregateLoop rs).time_valid (aggregateLoop_times_nonempty rs)
    rw [hb] at h
    simp only [] at h
    have hout : out = (sortByTimeSumDesc ((aggregateLoop rs).times.map
        (statOf (aggregateLoop rs).count_valid (aggregateLoop rs).time_valid))).take k :=
      (Except.ok.inj h).symm
    set stats := (aggregateLoop rs).times.map
      (statOf (aggregateLoop rs).count_valid (aggregateLoop rs).time_valid) with hstats
    have hperc : ∀ s ∈ stats, s.count_perc = 100 * (s.count : ℚ) / (countValidOf rs : ℚ)
        ∧ s.time_perc = 100 * s.time_sum / totalTimeOf rs := by
      intro s hs
      rw [hstats] at hs
      rcases List.mem_map.mp hs with ⟨g, _, hg⟩
      rw [← hg]
      constructor
      · show 100 * (g.2.length : ℚ) / ((aggregateLoop rs).count_valid : ℚ)
            = 100 * ((g.2.length : Nat) : ℚ) / (countValidOf rs : ℚ)
        rw [aggregateLoop_count_valid]
      · show 100 * g.2.sum / (aggregateLoop rs).time_valid
            = 100 * g.2.sum / totalTimeOf rs
        rw [aggregateLoop_time_valid]
    refine ⟨stats, hb, ?_, hperc, ?_⟩
    · rw [hstats, List.map_map]
      have : (LogStat.count ∘ statOf (aggregateLoop rs).count_valid
          (aggregateLoop rs).time_valid) = (fun g => g.2.length) := by
        funext g; rfl
      rw [this, aggregateLoop_lenSum]
    · intro s hs
      refine hperc s ?_
      rw [hout] at hs
      exact (sortDesc_perm stats).mem_iff.mp (List.mem_of_mem_take hs)

/-- C3 witness: the three-URL file `rs3` with `top_k = 3`. -/
theorem counts_and_percentages_witness :
    getRequestStats rs3 3 1 = .ok stats3
  ∧ ∃ stats,
      buildStats (aggregateLoop rs3).count_valid (aggregateLoop rs3).time_valid
          (aggregateLoop rs3).times = .ok stats
      ∧ (stats.map LogStat.count).sum = countValidOf rs3
      ∧ (∀ s ∈ stats, s.count_perc = 100 * (s.count : ℚ) / (countValidOf rs3 : ℚ)
          ∧ s.time_perc = 100 * s.time_sum / totalTimeOf rs3)
      ∧ (∀ s ∈ stats3, s.count_perc = 100 * (s.count : ℚ) / (countValidOf rs3 : ℚ)
          ∧ s.time_perc = 100 * s.time_sum / totalTimeOf rs3) := by
  have h : getRequestStats rs3 3 1 = .ok stats3 := by
    with_unfolding_all decide
  exact ⟨h, counts_and_percentages rs3 3 1 _ h⟩

/-! ## Claim C9: a UTF-8 decoding failure aborts the whole pass -/

theorem mapOrFail_decode_fault {lines : List (List Nat)} {bl : List Nat}
    (hmem : bl ∈ lines) (hdec : utf8DecodeFrom bl = none) :
    mapOrFail (fun bl =>
      match utf8DecodeFrom bl with
      | none => .error PipeError.decodeError
      | some cs => .ok (parseLine cs)) lines = .error .decodeError := by
  induction lines with
  | nil => cases hmem
  | cons a as ih =>
    rcases List.mem_cons.mp hmem with h | h
    · subst h
      simp [mapOrFail, hdec]
    · cases hd : utf8DecodeFrom a with
      | none => simp [mapOrFail, hd]
      | some cs => simp [mapOrFail, hd, ih h, Except.map]

theorem mapOrFail_decode_ok {lines : List (List Nat)}
    (h : ∀ bl ∈ lines, (utf8DecodeFrom bl).isSome) :
    mapOrFail (fun bl =>
      match utf8DecodeFrom bl with
      | none => .error PipeError.decodeError
      | some cs => .ok (parseLine cs)) lines
      = .ok (lines.map (fun bl => parseLine ((utf8DecodeFrom bl).getD []))) := by
  induction lines with
  | nil => simp [mapOrFail]
  | cons a as ih =>
    obtain ⟨cs, hcs⟩ := Option.isSome_iff_exists.mp (h a (by simp))
    simp [mapOrFail, hcs, ih (fun bl hb => h bl (List.mem_cons_of_mem _ hb)), Except.map]

/-- C9: a line whose bytes are not valid UTF-8 makes the whole pass fault
with the decoding error — it is not counted as one invalid row and no
statistics are returned, and the fault is a different value from
`TooManyInvalidRecords`; when every line decodes, the iterator yields the
per-line parse of every decoded line. -/
theorem decode_fault_fatal :
    ∀ (lines : List (List Nat)) (k : Nat) (q : ℚ),
      ((∃ bl ∈ lines, utf8DecodeFrom bl = none) →
        getRequestStatsFromFile "log" lines k q = .error .decodeError
        ∧ getRequestStatsFromFile "gz" lines k q = .error .decodeError
        ∧ getRequestStatsFromFile "log" lines k q ≠ .error .tooManyInvalidRecords)
    ∧ ((∀ bl ∈ lines, (utf8DecodeFrom bl).isSome) →
        iterateOverRequests "log" lines
          = .ok (lines.map (fun bl => parseLine ((utf8DecodeFrom bl).getD [])))) := by
  intro lines k q
  constructor
  · rintro ⟨bl, hmem, hdec⟩
    have hlog : iterateOverRequests "log" lines = .error .decodeError := by
      unfold iterateOverRequests
      rw [if_neg (by simp)]
      exact mapOrFail_decode_fault hmem hdec
    have hgz : iterateOverRequests "gz" lines = .error .decodeError := by
      unfold iterateOverRequests
      rw [if_neg (by simp)]
      exact mapOrFail_decode_fault hmem hdec
    refine ⟨?_, ?_, ?_⟩
    · unfold getRequestStatsFromFile; rw [hlog]
    · unfold getRequestStatsFromFile; rw [hgz]
    · unfold getRequestStatsFromFile; rw [hlog]; simp
  · intro h
    unfold iterateOverRequests
    rw [if_neg (by simp)]
    exact mapOrFail_decode_ok h

/-- C9 witness: a file whose second line is the lone byte `0xFF` faults with
the decoding error for any allowance, while the same well-formed first line
alone decodes and parses. -/
theorem decode_fault_fatal_witness :
    (∃ bl ∈ [wfLine ++ [10], [255]], utf8DecodeFrom bl = none)
  ∧ getRequestStatsFromFile "log" [wfLine ++ [10], [255]] 1000 1 = .error .decodeError
  ∧ (∀ bl ∈ [wfLine ++ [10]], (utf8DecodeFrom bl).isSome)
  ∧ iterateOverRequests "log" [wfLine ++ [10]]
      = .ok ([wfLine ++ [10]].map (fun bl => parseLine ((utf8DecodeFrom bl).getD []))) :=
  ⟨by with_unfolding_all decide,
   ((decode_fault_fatal [wfLine ++ [10], [255]] 1000 1).1
      (by with_unfolding_all decide)).1,
   by with_unfolding_all decide,
   (decode_fault_fatal [wfLine ++ [10]] 1000 1).2 (by with_unfolding_all decide)⟩

/-! ## Claim C10: the pattern requires a trailing newline -/

theorem takeWhile_append_drop_self (p : Nat → Bool) (s : List Nat) :
    s.takeWhile p ++ s.drop (s.takeWhile p).length = s := by
  induction s with
  | nil => simp
  | cons a t ih =>
    by_cases h : p a
    · simp [List.takeWhile_cons, h, ih]
    · simp [List.takeWhile_cons, h]

theorem splitsDesc_append {s : List Nat} {p : List Nat × List Nat}
    (h : p ∈ splitsDesc s) : p.1 ++ p.2 = s := by
  unfold splitsDesc at h
  rcases List.mem_map.mp h with ⟨n, _, hn⟩
  rw [← hn]
  exact List.take_append_drop n s

theorem getLast?_append_of_getLast? {l1 l2 : List Nat} {x : Nat}
    (h : l2.getLast? = some x) : (l1 ++ l2).getLast? = some x := by
  rw [List.getLast?_append, h]
  rfl

theorem matchTimeTail_last {s g : List Nat} (h : matchTimeTail s = some g) :
    s.getLast? = some 10 := by
  unfold matchTimeTail at h
  split at h
  · exact absurd h (by simp)
  · split at h
    case h_1 r2 heq =>
      split at h
      · exact absurd h (by simp)
      · split at h
        case h_1 heq2 =>
          have hs : s = s.takeWhile isDigitCp ++ (46 :: (r2.takeWhile isDigitCp ++ [10])) := by
            conv_lhs => rw [← takeWhile_append_drop_self isDigitCp s]
            rw [heq]
            congr 1
            congr 1
            conv_lhs => rw [← takeWhile_append_drop_self isDigitCp r2]
            rw [heq2]
          rw [hs, show (46 :: (r2.takeWhile isDigitCp ++ [10]))
              = [46] ++ (r2.takeWhile isDigitCp ++ [10]) from rfl]
          exact getLast?_append_of_getLast?
            (getLast?_append_of_getLast? (getLast?_append_of_getLast? (by simp)))
        case h_2 heq2 =>
          have hs : s = s.takeWhile isDigitCp ++ (46 :: (r2.takeWhile isDigitCp ++ [10, 10])) := by
            conv_lhs => rw [← takeWhile_append_drop_self isDigitCp s]
            rw [heq]
            congr 1
            congr 1
            conv_lhs => rw [← takeWhile_append_drop_self isDigitCp r2]
            rw [heq2]
          rw [hs, show (46 :: (r2.takeWhile isDigitCp ++ [10, 10]))
              = [46] ++ (r2.takeWhile isDigitCp ++ [10, 10]) from rfl]
          refine getLast?_append_of_getLast? (getLast?_append_of_getLast?
            (getLast?_append_of_getLast? ?_))
          simp
        case h_3 => exact absurd h (by simp)
    case h_2 => exact absurd h (by simp)

theorem matchAfterStatus_last {s g : List Nat} (h : matchAfterStatus s = some g) :
    s.getLast? = some 10 := by
  unfold matchAfterStatus at h
  obtain ⟨p, hp, hf⟩ := List.exists_of_findSome?_eq_some h
  have hps := splitsDesc_append hp
  split at hf
  · split at hf
    case h_1 b heq =>
      have hb := matchTimeTail_last hf
      rw [← hps, heq, show (32 :: b) = [32] ++ b from rfl]
      exact getLast?_append_of_getLast? (getLast?_append_of_getLast? hb)
    case h_2 => exact absurd hf (by simp)
  · exact absurd hf (by simp)

theorem matchAfterQuote_last {s g : List Nat} (h : matchAfterQuote s = some g) :
    s.getLast? = some 10 := by
  unfold matchAfterQuote at h
  split at h
  case h_1 d1 d2 d3 rest =>
    split at h
    · have hr := matchAfterStatus_last h
      show (32 :: d1 :: d2 :: d3 :: rest).getLast? = some 10
      rw [show (32 :: d1 :: d2 :: d3 :: rest) = [32, d1, d2, d3] ++ rest from rfl]
      exact getLast?_append_of_getLast? hr
    · exact absurd h (by simp)
  case h_2 => exact absurd h (by simp)

theorem matchQuoted_last {s : List Nat} {g : List Nat × List Nat}
    (h : matchQuoted s = some g) : s.getLast? = some 10 := by
  unfold matchQuoted at h
  obtain ⟨p, hp, hf⟩ := List.exists_of_findSome?_eq_some h
  have hps := splitsDesc_append hp
  split at hf
  · split at hf
    case h_1 b heq =>
      cases hq : matchAfterQuote b with
      | none => rw [hq] at hf; exact absurd hf (by simp)
      | some t =>
        have hb := matchAfterQuote_last hq
        rw [← hps, heq, show (34 :: b) = [34] ++ b from rfl]
        exact getLast?_append_of_getLast? (getLast?_append_of_getLast? hb)
    case h_2 => exact absurd hf (by simp)
  · exact absurd hf (by simp)

theorem matchBracketed_last {s : List Nat} {g : List Nat × List Nat}
    (h : matchBracketed s = some g) : s.getLast? = some 10 := by
  unfold matchBracketed at h
  obtain ⟨p, hp, hf⟩ := List.exists_of_findSome?_eq_some h
  have hps := splitsDesc_append hp
  split at hf
  · split at hf
    case h_1 b heq =>
      have hb := matchQuoted_last hf
      rw [← hps, heq, show (93 :: 32 :: 34 :: b) = [93, 32, 34] ++ b from rfl]
      exact getLast?_append_of_getLast? (getLast?_append_of_getLast? hb)
    case h_2 => exact absurd hf (by simp)
  · exact absurd hf (by simp)

theorem logRequestMatch_last {s : List Nat} {g : List Nat × List Nat}
    (h : logRequestMatch s = some g) : s.getLast? = some 10 := by
  unfold logRequestMatch at h
  obtain ⟨p, hp, hf⟩ := List.exists_of_findSome?_eq_some h
  have hps := splitsDesc_append hp
  split at hf
  · split at hf
    case h_1 b heq =>
      have hb := matchBracketed_last hf
      rw [← hps, heq, show (91 :: b) = [91] ++ b from rfl]
      exact getLast?_append_of_getLast? (getLast?_append_of_getLast? hb)
    case h_2 => exact absurd hf (by simp)
  · exact absurd hf (by simp)

/-- C10: a line that does not end with the newline code point — such as the
final line of a file with no trailing terminator — never matches the
extraction pattern, so the parser yields the invalid marker even for
otherwise well-formed content. -/
theorem line_requires_newline :
    ∀ s : List Nat, s.getLast? ≠ some 10 → parseLine s = none := by
  intro s h
  unfold parseLine
  cases hm : logRequestMatch s with
  | none => rfl
  | some g => exact absurd (logRequestMatch_last hm) h

/-- C10 witness: the well-formed line is parsed with its trailing newline
and rejected without it. -/
theorem line_requires_newline_witness :
    wfLine.getLast? ≠ some 10
  ∧ parseLine wfLine = none
  ∧ parseLine (wfLine ++ [10]) = some ⟨cps "/api/bbb", 1/2⟩ :=
  ⟨by with_unfolding_all decide,
   line_requires_newline wfLine (by with_unfolding_all decide),
   by with_unfolding_all decide⟩

/-! ## The lexicographic order on character lists

Python compares `str` values code point by code point; Lean's `String` order
is `List.lt` on the character lists, which is the same order.  The lemmas
here connect it to the embedded dates of matching filenames. -/

theorem string_lt_iff_data {s t : String} : s < t ↔ s.data < t.data :=
  String.lt_iff_toList_lt

theorem string_lt_irrefl (s : String) : ¬ s < s :=
  fun h => lt_irrefl s.data (string_lt_iff_data.mp h)

theorem string_lt_trans {a b c : String} (h1 : a < b) (h2 : b < c) : a < c :=
  string_lt_iff_data.mpr
    (lt_trans (string_lt_iff_data.mp h1) (string_lt_iff_data.mp h2))

theorem string_lt_connex {a b : String} (h : a ≠ b) : a < b ∨ b < a := by
  have hd : a.data ≠ b.data := by
    intro hh
    apply h
    cases a; cases b
    exact congrArg String.mk hh
  rcases lt_trichotomy a.data b.data with h1 | h1 | h1
  · exact Or.inl (string_lt_iff_data.mpr h1)
  · exact absurd h1 hd
  · exact Or.inr (string_lt_iff_data.mpr h1)

theorem codepointLt_iff (a b : List Char) : codepointLt a b = true ↔ a < b := by
  induction a generalizing b with
  | nil =>
    cases b with
    | nil =>
      constructor
      · intro h; simp [codepointLt] at h
      · intro h; cases h
    | cons y ys =>
      constructor
      · intro _; exact List.Lex.nil
      · intro _; rfl
  | cons x xs ih =>
    cases b with
    | nil =>
      constructor
      · intro h; simp [codepointLt] at h
      · intro h; cases h
    | cons y ys =>
      by_cases hxy : x < y
      · constructor
        · intro _; exact List.Lex.rel hxy
        · intro _; simp [codepointLt, hxy]
      · by_cases hyx : y < x
        · constructor
          · intro h
            simp [codepointLt, hxy, hyx] at h
          · intro h
            cases h with
            | cons h2 => exact absurd hyx (lt_irrefl x)
            | rel h2 => exact absurd h2 hxy
        · have hxy2 : x = y := le_antisymm (le_of_not_lt hyx) (le_of_not_lt hxy)
          subst hxy2
          have hred : codepointLt (x :: xs) (x :: ys) = codepointLt xs ys := by
            simp [codepointLt]
          constructor
          · intro h
            rw [hred] at h
            exact List.Lex.cons ((ih ys).mp h)
          · intro h
            have hxsys : xs < ys := by
              cases h with
              | cons h2 => exact h2
              | rel h2 => exact absurd h2 (lt_irrefl x)
            rw [hred]
            exact (ih ys).mpr hxsys

theorem codepointLt_string_iff (m f : String) :
    codepointLt m.data f.data = true ↔ m < f :=
  (codepointLt_iff m.data f.data).trans string_lt_iff_data.symm

theorem listChar_lt_append_left (p : List Char) {a b : List Char}
    (h : a < b) : p ++ a < p ++ b := by
  induction p with
  | nil => exact h
  | cons c cs ih => exact List.Lex.cons ih

theorem listChar_lt_append_of_lt {a b : List Char} (x y : List Char)
    (hlen : a.length = b.length) (h : a < b) :
    a ++ x < b ++ y := by
  induction a generalizing b with
  | nil =>
    cases b with
    | nil => cases h
    | cons => simp at hlen
  | cons c cs ih =>
    cases b with
    | nil => simp at hlen
    | cons d ds =>
      cases h with
      | cons hh => exact List.Lex.cons (ih (by simpa using hlen) hh)
      | rel hcd => exact List.Lex.rel hcd

/-! ## Digit runs and their numeric values -/

theorem foldl_digits_init (l : List Char) (init : Nat) :
    l.foldl (fun n c => n * 10 + (c.toNat - 48)) init
      = init * 10 ^ l.length + l.foldl (fun n c => n * 10 + (c.toNat - 48)) 0 := by
  induction l generalizing init with
  | nil => simp
  | cons c t ih =>
    simp only [List.foldl_cons, List.length_cons]
    rw [ih (init * 10 + (c.toNat - 48)), ih (0 * 10 + (c.toNat - 48))]
    ring

theorem charDigitsVal_cons (c : Char) (l : List Char) :
    charDigitsVal (c :: l) = (c.toNat - 48) * 10 ^ l.length + charDigitsVal l := by
  unfold charDigitsVal
  simp only [List.foldl_cons]
  rw [foldl_digits_init l (0 * 10 + (c.toNat - 48))]
  simp

theorem isDigitChar_toNat {c : Char} (h : isDigitChar c = true) :
    48 ≤ c.toNat ∧ c.toNat ≤ 57 := by
  unfold isDigitChar at h
  simpa using h

theorem charDigitsVal_lt (l : List Char) (h : l.all isDigitChar) :
    charDigitsVal l < 10 ^ l.length := by
  induction l with
  | nil => simp [charDigitsVal]
  | cons c t ih =>
    rw [charDigitsVal_cons]
    have hct : isDigitChar c = true ∧ t.all isDigitChar = true := by simpa using h
    obtain ⟨hc, ht⟩ := hct
    have hd : c.toNat - 48 ≤ 9 := by
      have := isDigitChar_toNat hc
      omega
    have hv := ih ht
    calc (c.toNat - 48) * 10 ^ t.length + charDigitsVal t
        < (c.toNat - 48) * 10 ^ t.length + 10 ^ t.length := by omega
      _ = (c.toNat - 48 + 1) * 10 ^ t.length := by ring
      _ ≤ 10 * 10 ^ t.length := Nat.mul_le_mul_right _ (by omega)
      _ = 10 ^ (t.length + 1) := by ring
      _ = 10 ^ (c :: t).length := by rw [List.length_cons]

theorem listChar_lt_of_digitsVal_lt {a b : List Char}
    (hlen : a.length = b.length) (ha : a.all isDigitChar) (hb : b.all isDigitChar)
    (h : charDigitsVal a < charDigitsVal b) : a < b := by
  induction a generalizing b with
  | nil =>
    cases b with
    | nil => simp [charDigitsVal] at h
    | cons => simp at hlen
  | cons c cs ih =>
    cases b with
    | nil => simp at hlen
    | cons d ds =>
      have hca2 : isDigitChar c = true ∧ cs.all isDigitChar = true := by simpa using ha
      have hda2 : isDigitChar d = true ∧ ds.all isDigitChar = true := by simpa using hb
      obtain ⟨hca, hcsa⟩ := hca2
      obtain ⟨hda, hdsa⟩ := hda2
      have hlen2 : cs.length = ds.length := by simpa using hlen
      rcases lt_trichotomy c d with hcd | hcd | hcd
      · exact List.Lex.rel hcd
      · subst hcd
        refine List.Lex.cons (ih hlen2 hcsa hdsa ?_)
        rw [charDigitsVal_cons, charDigitsVal_cons, hlen2] at h
        exact lt_of_add_lt_add_left h
      · exfalso
        have hc48 := isDigitChar_toNat hca
        have hd48 := isDigitChar_toNat hda
        have hdc : d.toNat < c.toNat := hcd
        have hds_lt := charDigitsVal_lt ds hdsa
        rw [charDigitsVal_cons, charDigitsVal_cons, hlen2] at h
        have h1 : (d.toNat - 48 + 1) * 10 ^ ds.length ≤ (c.toNat - 48) * 10 ^ ds.length :=
          Nat.mul_le_mul_right _ (by omega)
        have h2 : (d.toNat - 48) * 10 ^ ds.length + 10 ^ ds.length
            ≤ (c.toNat - 48) * 10 ^ ds.length := by
          calc (d.toNat - 48) * 10 ^ ds.length + 10 ^ ds.length
              = (d.toNat - 48 + 1) * 10 ^ ds.length := by ring
            _ ≤ (c.toNat - 48) * 10 ^ ds.length := h1
        omega

/-! ## The selection made by `max` over matching filenames -/

theorem foldl_maxStep_some (l : List String) (acc : Option String) :
    ∀ r, l.foldl maxStep acc = some r →
      (acc = some r ∨ r ∈ l) ∧ (∀ x ∈ l, ¬ r < x) ∧ (∀ m, acc = some m → ¬ r < m) := by
  induction l generalizing acc with
  | nil =>
    intro r hr
    rw [List.foldl_nil] at hr
    refine ⟨Or.inl hr, by simp, fun m hm => ?_⟩
    rw [hr] at hm
    have hrm := Option.some.inj hm
    subst hrm
    exact string_lt_irrefl r
  | cons f fs ih =>
    intro r hr
    rw [List.foldl_cons] at hr
    rcases ih (maxStep acc f) r hr with ⟨hmem, hdom, hacc⟩
    cases acc with
    | none =>
      have hrf : ¬ r < f := hacc f rfl
      refine ⟨?_, ?_, fun m hm => by cases hm⟩
      · rcases hmem with h1 | h1
        · exact Or.inr (List.mem_cons.mpr (Or.inl (Option.some.inj h1).symm))
        · exact Or.inr (List.mem_cons_of_mem _ h1)
      · intro x hx
        rcases List.mem_cons.mp hx with hx | hx
        · rw [hx]; exact hrf
        · exact hdom x hx
    | some m =>
      cases hc : codepointLt m.data f.data with
      | true =>
        have hmf : m < f := (codepointLt_string_iff m f).mp hc
        have hMf : maxStep (some m) f = some f := by simp [maxStep, hc]
        rw [hMf] at hmem hacc
        have hrf : ¬ r < f := hacc f rfl
        have hrm : ¬ r < m := fun hrm2 => hrf (string_lt_trans hrm2 hmf)
        refine ⟨?_, ?_, ?_⟩
        · rcases hmem with h1 | h1
          · exact Or.inr (List.mem_cons.mpr (Or.inl (Option.some.inj h1).symm))
          · exact Or.inr (List.mem_cons_of_mem _ h1)
        · intro x hx
          rcases List.mem_cons.mp hx with hx | hx
          · rw [hx]; exact hrf
          · exact hdom x hx
        · intro m2 hm2
          rw [← Option.some.inj hm2]
          exact hrm
      | false =>
        have hmf : ¬ m < f := fun hh => by
          simp [(codepointLt_string_iff m f).mpr hh] at hc
        have hMf : maxStep (some m) f = some m := by simp [maxStep, hc]
        rw [hMf] at hmem hacc
        have hrm : ¬ r < m := hacc m rfl
        have hrf : ¬ r < f := by
          intro hrf2
          by_cases hfm : f = m
          · exact hrm (hfm ▸ hrf2)
          · rcases string_lt_connex hfm with h1 | h1
            · exact hrm (string_lt_trans hrf2 h1)
            · exact hmf h1
        refine ⟨?_, ?_, ?_⟩
        · rcases hmem with h1 | h1
          · exact Or.inl h1
          · exact Or.inr (List.mem_cons_of_mem _ h1)
        · intro x hx
          rcases List.mem_cons.mp hx with hx | hx
          · rw [hx]; exact hrf
          · exact hdom x hx
        · intro m2 hm2
          rw [← Option.some.inj hm2]
          exact hrm

theorem foldl_maxStep_none (l : List String) (acc : Option String)
    (h : l.foldl maxStep acc = none) : l = [] := by
  induction l generalizing acc with
  | nil => rfl
  | cons f fs ih =>
    rw [List.foldl_cons] at h
    have := ih (maxStep acc f) h
    subst this
    cases acc with
    | none => cases h
    | some m =>
      cases hc : codepointLt m.data f.data with
      | true =>
        rw [show maxStep (some m) f = some f by simp [maxStep, hc]] at h
        cases h
      | false =>
        rw [show maxStep (some m) f = some m by simp [maxStep, hc]] at h
        cases h

theorem mostRecentFilename_spec (filenames : List String) :
    ∀ r, mostRecentFilename filenames = some r →
      r ∈ filenames ∧ matchesLogFilename r
      ∧ ∀ f ∈ filenames, matchesLogFilename f → ¬ r < f := by
  intro r hr
  unfold mostRecentFilename at hr
  rcases foldl_maxStep_some (filenames.filter matchesLogFilename) none r hr
    with ⟨hmem, hdom, _⟩
  rcases hmem with h1 | h1
  · cases h1
  · have hmm := List.mem_filter.mp h1
    exact ⟨hmm.1, hmm.2, fun f hf hmf => hdom f (List.mem_filter.mpr ⟨hf, hmf⟩)⟩

theorem mostRecentFilename_some (filenames : List String)
    (h : ∃ f ∈ filenames, matchesLogFilename f) :
    ∃ r, mostRecentFilename filenames = some r := by
  cases hr : mostRecentFilename filenames with
  | some r => exact ⟨r, rfl⟩
  | none =>
    obtain ⟨f, hf, hmf⟩ := h
    unfold mostRecentFilename at hr
    have hnil := foldl_maxStep_none (filenames.filter matchesLogFilename) none hr
    have hmem : f ∈ filenames.filter matchesLogFilename :=
      List.mem_filter.mpr ⟨hf, hmf⟩
    rw [hnil] at hmem
    cases hmem

/-! ## Decomposition of a matching filename -/

theorem filenameMatch_decomp {s : String} {d : List Char} {ext : String}
    (h : filenameMatch s = some (d, ext)) :
    s.data = logPrefix ++ (d ++ '.' :: ext.data)
    ∧ d.length = 8 ∧ d.all isDigitChar ∧ (ext = "gz" ∨ ext = "log") := by
  unfold filenameMatch at h
  split at h
  case isTrue hpre =>
    split at h
    case isTrue hd =>
      split at h
      case h_1 extl heq =>
        split at h
        case isTrue hext =>
          have hde : ((s.data.drop 20).take 8 = d) ∧ String.mk extl = ext := by
            have := Option.some.inj h
            exact ⟨congrArg Prod.fst this, congrArg Prod.snd this⟩
          obtain ⟨hd8, hextl⟩ := hde
          have hsplit : s.data = s.data.take 20 ++ s.data.drop 20 :=
            (List.take_append_drop 20 s.data).symm
          have hsplit2 : s.data.drop 20
              = (s.data.drop 20).take 8 ++ (s.data.drop 20).drop 8 :=
            (List.take_append_drop 8 (s.data.drop 20)).symm
          refine ⟨?_, ?_, ?_, ?_⟩
          · rw [hsplit, hpre, hsplit2, hd8, heq, ← hextl]
          · rw [← hd8]; exact hd.1
          · rw [← hd8]; exact hd.2
          · rcases hext with hext | hext
            · exact Or.inl (by rw [← hextl, hext])
            · exact Or.inr (by rw [← hextl, hext])
        case isFalse => exact absurd h (by simp)
      case h_2 => exact absurd h (by simp)
    case isFalse => exact absurd h (by simp)
  case isFalse => exact absurd h (by simp)

theorem dateNatOf_eq {s : String} {d : List Char} {ext : String}
    (h : filenameMatch s = some (d, ext)) : dateNatOf s = charDigitsVal d := by
  unfold dateNatOf
  rw [h]

theorem string_lt_of_dateNat_lt {f g : String}
    (hf : matchesLogFilename f) (hg : matchesLogFilename g)
    (h : dateNatOf f < dateNatOf g) : f < g := by
  obtain ⟨⟨df, ef⟩, hdf⟩ := Option.isSome_iff_exists.mp hf
  obtain ⟨⟨dg, eg⟩, hdg⟩ := Option.isSome_iff_exists.mp hg
  obtain ⟨hfd, hflen, hfdig, _⟩ := filenameMatch_decomp hdf
  obtain ⟨hgd, hglen, hgdig, _⟩ := filenameMatch_decomp hdg
  have hval : charDigitsVal df < charDigitsVal dg := by
    rw [dateNatOf_eq hdf, dateNatOf_eq hdg] at h
    exact h
  rw [string_lt_iff_data, hfd, hgd]
  exact listChar_lt_append_left logPrefix
    (listChar_lt_append_of_lt _ _ (by rw [hflen, hglen])
      (listChar_lt_of_digitsVal_lt (by rw [hflen, hglen]) hfdig hgdig hval))

/-! ## Claims C4, C5, C6 -/

/-- C4: with at least one matching filename, `_most_recent_filename` selects
a matching entry whose embedded date is greatest, and the selected entry is
the lexicographic maximum of the full filenames among all matching entries —
so same-date ties go to the lexicographically greatest name, which favours
`.log` over `.gz`. -/
theorem locator_most_recent :
    ∀ filenames : List String, (∃ f ∈ filenames, matchesLogFilename f) →
    ∃ r, mostRecentFilename filenames = some r
      ∧ r ∈ filenames ∧ matchesLogFilename r
      ∧ (∀ f ∈ filenames, matchesLogFilename f → dateNatOf f ≤ dateNatOf r)
      ∧ (∀ f ∈ filenames, matchesLogFilename f → ¬ r < f) := by
  intro fs hex
  obtain ⟨r, hr⟩ := mostRecentFilename_some fs hex
  obtain ⟨hmem, hmr, hdom⟩ := mostRecentFilename_spec fs r hr
  refine ⟨r, hr, hmem, hmr, ?_, hdom⟩
  intro f hf hmf
  by_contra hlt
  exact hdom f hf hmf (string_lt_of_dateNat_lt hmr hmf (lt_of_not_le hlt))

/-- C4 witness: on `listing4` the selected entry is the same-date `.log`
file, the lexicographic maximum of the matching filenames. -/
theorem locator_most_recent_witness :
    (∃ f ∈ listing4, matchesLogFilename f)
  ∧ mostRecentFilename listing4 = some "nginx-access-ui.log-20170701.log"
  ∧ (∃ r, mostRecentFilename listing4 = some r
      ∧ r ∈ listing4 ∧ matchesLogFilename r
      ∧ (∀ f ∈ listing4, matchesLogFilename f → dateNatOf f ≤ dateNatOf r)
      ∧ (∀ f ∈ listing4, matchesLogFilename f → ¬ r < f)) :=
  ⟨by decide, by set_option maxRecDepth 100000 in decide,
   locator_most_recent listing4 (by decide)⟩

/-- C5 (the claim fails on `log_analyzer/core.py`): on a directory whose
lexicographically greatest matching name carries the impossible date
`20190631`, `find_most_recent_log` of core.py faults with the `strptime`
`ValueError` instead of silently ignoring the entry — its own test suite
(`test_is_valid_date`) expects such dates to be filtered out — while the
`log_analyzer.py` snapshot skips the entry and returns the remaining valid
maximum, as the claim states. -/
theorem locator_invalid_date_fault :
    findMostRecentLog (some ["nginx-access-ui.log-20190631.log",
        "nginx-access-ui.log-20190102.log"]) = .error .invalidDate
  ∧ findMostRecentLogMain (some ["nginx-access-ui.log-20190631.log",
        "nginx-access-ui.log-20190102.log"])
      = .ok (some ⟨"nginx-access-ui.log-20190102.log", 20190102, "log"⟩) := by
  constructor
  · set_option maxRecDepth 100000 in decide
  · set_option maxRecDepth 100000 in decide

/-- C6 (the claim fails on `log_analyzer/core.py`): on an existing directory
with zero matching filenames, core.py's `find_most_recent_log` raises
`ValueError("There are no valid logs.")` instead of returning the benign
not-found value — its own test `test_empty_directory` asserts `None` — while
`log_analyzer.py` returns `None`; `InvalidDirectory` (the `TypeError`) is
raised by both exactly when the path is not a directory. -/
theorem locator_empty_directory :
    findMostRecentLog (some ["image.jpg"]) = .error .noValidLogs
  ∧ findMostRecentLogMain (some ["image.jpg"]) = .ok none
  ∧ findMostRecentLog (some []) = .error .noValidLogs
  ∧ findMostRecentLogMain (some []) = .ok none
  ∧ findMostRecentLog none = .error .invalidDirectory
  ∧ findMostRecentLogMain none = .error .invalidDirectory
  ∧ (∀ listing : List String,
      findMostRecentLog (some listing) ≠ .error .invalidDirectory) := by
  refine ⟨by set_option maxRecDepth 100000 in decide,
    by set_option maxRecDepth 100000 in decide, by decide, by decide, rfl, rfl, ?_⟩
  intro listing
  unfold findMostRecentLog
  cases hm : mostRecentFilename listing with
  | none => simp [hm]
  | some name =>
    cases hf : filenameMatch name with
    | none => simp [hm, hf]
    | some p =>
      obtain ⟨d, ext⟩ := p
      by_cases hv : isValidDate8 d <;> simp [hm, hf, hv]

end LogAnalyzer
